import Mathlib

/-
Verification of the qising repository's numerical core against its
specification.

Conventions of the shallow embedding:
* the Go scalar type `complex64` is modelled by a field `K` carrying a star
  operation, instantiated at `ℂ` in the claim theorems;
* the Go scalar type `float32` is modelled by a linear ordered field `R'`,
  instantiated at `ℝ` in the claim theorems;
* the complex modulus `abs : complex64 → float32` is passed as a function
  parameter `cabs : K → R'`, instantiated at `Complex.abs`;
* tensors of the dense kernel are modelled as functions from indices to
  scalars; lists of tensors model slices of Go tensors.
-/

namespace QIsing

/-- Machine precision constant of the source, `epsilon = 0x1p-23`. -/
def epsilon {R' : Type} [LinearOrderedField R'] : R' := 1 / 2 ^ 23

/-! ### Arnoldi convergence test (`arnoldiConverged`, part_000 lines 220-257) -/

/-- Result record of `arnoldiConverged`; the Go struct also carries the
diagnostic fields `largestDiffIdx` and `largestDiff`, which do not influence
the solver and are omitted here. -/
structure ArnoldiConvergence where
  converged : Bool
  numConverged : ℕ

/-- Convergence test of one wanted Ritz pair in `arnoldiConverged`:
`diff < tol*max(1, abs(lambda))` with `diff = rNorm*abs(vecs.At(m-1, i))`
and `tol = 2*epsilon`. -/
def arnoldiPairConverged {K R' : Type} [LinearOrderedField R'] (cabs : K → R')
    (rNorm : R') (m : ℕ) (vecs : ℕ → ℕ → K) (vals : ℕ → K) (i : ℕ) : Prop :=
  rNorm * cabs (vecs (m - 1) i) < 2 * epsilon * max 1 (cabs (vals i))

instance {K R' : Type} [LinearOrderedField R'] (cabs : K → R') (rNorm : R')
    (m : ℕ) (vecs : ℕ → ℕ → K) (vals : ℕ → K) (i : ℕ) :
    Decidable (arnoldiPairConverged cabs rNorm m vecs vals i) := by
  unfold arnoldiPairConverged; infer_instance

/-- Embedding of `arnoldiConverged` (part_000 lines 230-257): `rNorm` is the
Frobenius norm of the residual matrix `r`, `m = vecs.Shape()[0]`
and `numVecs = vecs.Shape()[1]`; a pair is counted when the test of
`arnoldiPairConverged` holds and the whole iteration converged exactly when
all `numVecs` pairs are counted. -/
def arnoldiConverged {K R' : Type} [LinearOrderedField R'] (cabs : K → R')
    (rNorm : R') (m numVecs : ℕ) (vecs : ℕ → ℕ → K) (vals : ℕ → K) :
    ArnoldiConvergence :=
  let n := (List.range numVecs).countP fun i =>
    decide (arnoldiPairConverged cabs rNorm m vecs vals i)
  { converged := n == numVecs, numConverged := n }

/-! ### Arnoldi implicit-restart position (Arnoldi.Solve, part_000 lines 110-116) -/

/-- Stagnation-guarded restart position of `Arnoldi.Solve`:
`start = min(k + numConverged, k + (krylovDim-k)/2)`. -/
def arnoldiRestartStart (k numConverged krylovDim : ℕ) : ℕ :=
  min (k + numConverged) (k + (krylovDim - k) / 2)

/-- Shift list of the implicit restart: the slice
`eigvals.Slice({start, eigvals.Shape()[0]})`, one shift per element. -/
def arnoldiUnwanted {K : Type} (eigvals : List K) (start : ℕ) : List K :=
  eigvals.drop start

/-- Resolved Krylov space dimension of `Arnoldi.Solve` (part_000 lines 78-84):
the default `max(2k+1, 20)` clipped to the matrix dimension `m`. -/
def arnoldiKrylovDim (m k : ℕ) : ℕ := min m (max (2 * k + 1) 20)

end QIsing

namespace QIsing

/-! ### Bounded iteration loops (Eig.solve, Arnoldi.Solve, Eig.InverseIteration)

The matrix contents of these loops live in the dense tensor kernel, which is
not part of the sources; the loop bodies are therefore abstracted as state
transition functions on an arbitrary state type `σ`, while the loop control
flow, the convergence checks wired into it, and the hard iteration caps are
translated from the source. -/

/-- Data extracted from one `Arnoldi.iterate` call that feeds
`arnoldiConverged`: the Frobenius norm of the residual, the row count of the
Ritz vector matrix, the Ritz vectors and the Ritz values. -/
structure ArnoldiIterData (K R' : Type) where
  rNorm : R'
  m : ℕ
  vecs : ℕ → ℕ → K
  vals : ℕ → K

/-- Options of `Arnoldi.Solve`; `krylovSpaceDim < 0` means "use the default". -/
structure ArnoldiOptions where
  krylovSpaceDim : ℤ
  maxIterations : ℕ

/-- Embedding of `NewArnoldiOptions` (part_000 lines 56-61). -/
def NewArnoldiOptions : ArnoldiOptions :=
  { krylovSpaceDim := -1, maxIterations := 64 }

/-- Inner loop of `Eig.solve` (part_000 lines 368-401): run up to the given
fuel many shifted-QR sweeps `step` on the unreduced block, stopping with
`true` as soon as the deflation check succeeds on the new state. -/
def eigInnerLoop {σ : Type} (step : σ → σ) (deflated : σ → Bool) :
    ℕ → σ → Bool × σ
  | 0, s => (false, s)
  | n + 1, s =>
    let t := step s
    if deflated t then (true, t) else eigInnerLoop step deflated n t

/-- Per-block part of `Eig.solve`: 32 inner sweeps, and a "not converged"
error when the cap is reached without deflation (part_000 lines 368-404). -/
def eigSolveBlock {σ : Type} (step : σ → σ) (deflated : σ → Bool) (s : σ) :
    Except String σ :=
  let r := eigInnerLoop step deflated 32 s
  if r.1 then Except.ok r.2 else Except.error "not converged"

/-- Outer loop of `Arnoldi.Solve` (part_000 lines 95-117): each round runs the
Arnoldi factorization plus the projected eigensolve (`iterate`), applies the
convergence test, and on failure implicitly restarts with a number of shifts
determined by `numConverged`. -/
def arnoldiLoop {σ K R' : Type} [LinearOrderedField R'] (cabs : K → R')
    (k : ℕ) (iterate : σ → ArnoldiIterData K R' × σ) (restart : σ → ℕ → σ) :
    ℕ → σ → Bool × σ
  | 0, s => (false, s)
  | n + 1, s =>
    let it := iterate s
    let cvg := arnoldiConverged cabs it.1.rNorm it.1.m k it.1.vecs it.1.vals
    if cvg.converged then (true, it.2)
    else arnoldiLoop cabs k iterate restart n (restart it.2 cvg.numConverged)

/-- One non-converged round of the `Arnoldi.Solve` loop: iterate, then
implicitly restart with the converged count of the failed test. -/
def arnoldiStep {σ K R' : Type} [LinearOrderedField R'] (cabs : K → R')
    (k : ℕ) (iterate : σ → ArnoldiIterData K R' × σ) (restart : σ → ℕ → σ)
    (s : σ) : σ :=
  let it := iterate s
  restart it.2
    (arnoldiConverged cabs it.1.rNorm it.1.m k it.1.vecs it.1.vals).numConverged

/-- Convergence flag of one `Arnoldi.Solve` round at state `s`. -/
def arnoldiConvAt {σ K R' : Type} [LinearOrderedField R'] (cabs : K → R')
    (k : ℕ) (iterate : σ → ArnoldiIterData K R' × σ) (s : σ) : Bool :=
  (arnoldiConverged cabs (iterate s).1.rNorm (iterate s).1.m k
    (iterate s).1.vecs (iterate s).1.vals).converged

/-- Embedding of `Arnoldi.Solve`'s outer control flow (part_000 lines 94-124):
run up to `maxIterations` rounds and fail with "not converged" if none of
them passes the convergence test. -/
def arnoldiSolve {σ K R' : Type} [LinearOrderedField R'] (cabs : K → R')
    (k : ℕ) (iterate : σ → ArnoldiIterData K R' × σ) (restart : σ → ℕ → σ)
    (maxIterations : ℕ) (s : σ) : Except String σ :=
  let r := arnoldiLoop cabs k iterate restart maxIterations s
  if r.1 then Except.ok r.2 else Except.error "not converged"

/-- Loop of `Eig.InverseIteration` (part_000 lines 472-490): each `step` is a
back-substitution solve, normalization and residual computation; the loop
stops once the residual's infinity norm `resNorm` drops below
`epsilon * aNorm`. -/
def inverseIterationLoop {σ R' : Type} [LinearOrderedField R'] (step : σ → σ)
    (resNorm : σ → R') (aNorm : R') : ℕ → σ → Bool × σ
  | 0, s => (false, s)
  | n + 1, s =>
    let t := step s
    if resNorm t < epsilon * aNorm then (true, t)
    else inverseIterationLoop step resNorm aNorm n t

/-- Embedding of `Eig.InverseIteration`'s control flow (part_000 lines
442-499): 16 iteration steps, a "not converged" error at the cap, and the
Rayleigh-quotient refinement of the eigenvalue on success. -/
def inverseIteration {σ K R' : Type} [LinearOrderedField R'] (step : σ → σ)
    (resNorm : σ → R') (aNorm : R') (rayleigh : σ → K) (s : σ) :
    Except String K :=
  let r := inverseIterationLoop step resNorm aNorm 16 s
  if r.1 then Except.ok (rayleigh r.2) else Except.error "not converged"

/-! ### MPS ground-state search loop (mps.go lines 218-287) -/

/-- Observable results of one sweep round of `SearchGroundState`:
whether the right/left sweeps failed (an Arnoldi error), and the raw values
`⟨ψ|ψ⟩`, `fs[0].At(0,0,0)` and `H2(ws, ms)` computed after the sweeps. -/
structure SweepData (K : Type) where
  sweepFail : Bool
  psiIP : K
  hNum : K
  h2Num : K

/-- Options of `SearchGroundState`. -/
structure SearchGroundStateOptions (R' : Type) where
  maxIterations : ℕ
  tol : R'

/-- Embedding of `NewSearchGroundStateOptions` (mps.go lines 225-230). -/
def NewSearchGroundStateOptions {R' : Type} [LinearOrderedField R'] :
    SearchGroundStateOptions R' :=
  { maxIterations := 32, tol := 1 / 1000000 }

/-- Main loop of `SearchGroundState` (mps.go lines 258-282), with the two
sweeps of iteration `i` abstracted into `it i`: propagate a sweep error, fail
when `|⟨ψ|ψ⟩| < epsilon`, otherwise normalize `h = ⟨H⟩/⟨ψ|ψ⟩` and
`h2 = ⟨H²⟩/⟨ψ|ψ⟩` and stop successfully when
`|h2 - h*h| < tol * max(|h2|, 1)`. -/
def searchGroundStateLoop {K R' : Type} [Field K] [LinearOrderedField R']
    (cabs : K → R') (tol : R') (it : ℕ → SweepData K) :
    ℕ → ℕ → Except String Unit
  | _, 0 => Except.error "not converged"
  | i, n + 1 =>
    let d := it i
    if d.sweepFail then Except.error "sweep failed"
    else if cabs d.psiIP < epsilon then Except.error "psi degenerate"
    else
      let h := d.hNum / d.psiIP
      let h2 := d.h2Num / d.psiIP
      if cabs (h2 - h * h) < tol * max (cabs h2) 1 then Except.ok ()
      else searchGroundStateLoop cabs tol it (i + 1) n

/-- Embedding of `SearchGroundState` (mps.go lines 246-287). -/
def SearchGroundState {K R' : Type} [Field K] [LinearOrderedField R']
    (cabs : K → R') (it : ℕ → SweepData K)
    (opt : SearchGroundStateOptions R') : Except String Unit :=
  searchGroundStateLoop cabs opt.tol it 0 opt.maxIterations

/-- Normality check of one sweep round: the sweeps succeeded and `⟨ψ|ψ⟩` was
not degenerate. -/
def sgsGood {K R' : Type} [LinearOrderedField R'] (cabs : K → R')
    (d : SweepData K) : Prop :=
  d.sweepFail = false ∧ ¬cabs d.psiIP < epsilon

/-- Convergence criterion of one sweep round of `SearchGroundState`. -/
def sgsConverged {K R' : Type} [Field K] [LinearOrderedField R']
    (cabs : K → R') (tol : R') (d : SweepData K) : Prop :=
  cabs (d.h2Num / d.psiIP - d.hNum / d.psiIP * (d.hNum / d.psiIP)) <
    tol * max (cabs (d.h2Num / d.psiIP)) 1

/-! ### Loop characterization lemmas -/

theorem eigInnerLoop_true_iff {σ : Type} (step : σ → σ) (deflated : σ → Bool)
    (n : ℕ) : ∀ s : σ, (eigInnerLoop step deflated n s).1 = true ↔
      ∃ i < n, deflated (step^[i + 1] s) = true := by
  induction n with
  | zero => intro s; simp [eigInnerLoop]
  | succ n ih =>
    intro s
    rw [eigInnerLoop]
    by_cases h : deflated (step s) = true
    · simp only [h, if_true]
      constructor
      · intro _
        exact ⟨0, by omega, by simpa using h⟩
      · intro _; trivial
    · rw [if_neg h]
      rw [ih (step s)]
      constructor
      · rintro ⟨i, hi, hd⟩
        refine ⟨i + 1, by omega, ?_⟩
        rwa [Function.iterate_succ_apply]
      · rintro ⟨i, hi, hd⟩
        match i with
        | 0 => exact absurd (by simpa using hd) h
        | i + 1 =>
          refine ⟨i, by omega, ?_⟩
          rwa [Function.iterate_succ_apply] at hd

theorem arnoldiLoop_true_iff {σ K R' : Type} [LinearOrderedField R']
    (cabs : K → R') (k : ℕ) (iterate : σ → ArnoldiIterData K R' × σ)
    (restart : σ → ℕ → σ) (n : ℕ) :
    ∀ s : σ, (arnoldiLoop cabs k iterate restart n s).1 = true ↔
      ∃ i < n, arnoldiConvAt cabs k iterate
        ((arnoldiStep cabs k iterate restart)^[i] s) = true := by
  induction n with
  | zero => intro s; simp [arnoldiLoop]
  | succ n ih =>
    intro s
    rw [arnoldiLoop]
    by_cases h : arnoldiConvAt cabs k iterate s = true
    · rw [arnoldiConvAt] at h
      simp only [h, if_true]
      constructor
      · intro _
        refine ⟨0, by omega, ?_⟩
        simpa [arnoldiConvAt] using h
      · intro _; trivial
    · rw [arnoldiConvAt] at h
      rw [if_neg h]
      have hstep : restart (iterate s).2
          (arnoldiConverged cabs (iterate s).1.rNorm (iterate s).1.m k
            (iterate s).1.vecs (iterate s).1.vals).numConverged =
          arnoldiStep cabs k iterate restart s := rfl
      rw [hstep, ih]
      constructor
      · rintro ⟨i, hi, hd⟩
        refine ⟨i + 1, by omega, ?_⟩
        rwa [Function.iterate_succ_apply]
      · rintro ⟨i, hi, hd⟩
        match i with
        | 0 =>
          rw [Function.iterate_zero_apply, arnoldiConvAt] at hd
          exact absurd hd h
        | i + 1 =>
          refine ⟨i, by omega, ?_⟩
          rwa [Function.iterate_succ_apply] at hd

theorem inverseIterationLoop_true_iff {σ R' : Type} [LinearOrderedField R']
    (step : σ → σ) (resNorm : σ → R') (aNorm : R') (n : ℕ) :
    ∀ s : σ, (inverseIterationLoop step resNorm aNorm n s).1 = true ↔
      ∃ i < n, resNorm (step^[i + 1] s) < epsilon * aNorm := by
  induction n with
  | zero => intro s; simp [inverseIterationLoop]
  | succ n ih =>
    intro s
    rw [inverseIterationLoop]
    by_cases h : resNorm (step s) < epsilon * aNorm
    · simp only [h, if_true]
      constructor
      · intro _
        exact ⟨0, by omega, by simpa using h⟩
      · intro _; trivial
    · rw [if_neg h]
      rw [ih (step s)]
      constructor
      · rintro ⟨i, hi, hd⟩
        refine ⟨i + 1, by omega, ?_⟩
        rwa [Function.iterate_succ_apply]
      · rintro ⟨i, hi, hd⟩
        match i with
        | 0 => exact absurd (by simpa using hd) h
        | i + 1 =>
          refine ⟨i, by omega, ?_⟩
          rwa [Function.iterate_succ_apply] at hd

theorem searchGroundStateLoop_ok_iff {K R' : Type} [Field K]
    [LinearOrderedField R'] (cabs : K → R') (tol : R') (it : ℕ → SweepData K)
    (n : ℕ) : ∀ i : ℕ,
      (searchGroundStateLoop cabs tol it i n = Except.ok ()) ↔
      ∃ j < n,
        (∀ l < j, sgsGood cabs (it (i + l)) ∧
          ¬sgsConverged cabs tol (it (i + l))) ∧
        sgsGood cabs (it (i + j)) ∧ sgsConverged cabs tol (it (i + j)) := by
  induction n with
  | zero => intro i; simp [searchGroundStateLoop]
  | succ n ih =>
    intro i
    rw [searchGroundStateLoop]
    by_cases h1 : (it i).sweepFail = true
    · simp only [h1, if_true]
      constructor
      · intro hcontra; exact absurd hcontra (by simp)
      · rintro ⟨j, hj, hall, hg, hc⟩
        match j with
        | 0 => exact absurd (by simpa using hg.1) (by simp [h1])
        | j + 1 => exact absurd (by simpa using ((hall 0 (by omega)).1.1)) (by simp [h1])
    · simp only [eq_false_of_ne_true h1, if_false, Bool.false_eq_true]
      by_cases h2 : cabs (it i).psiIP < epsilon
      · simp only [h2, if_true]
        constructor
        · intro hcontra; exact absurd hcontra (by simp)
        · rintro ⟨j, hj, hall, hg, hc⟩
          match j with
          | 0 => exact absurd h2 (by simpa using hg.2)
          | j + 1 => exact absurd h2 (by simpa using (hall 0 (by omega)).1.2)
      · simp only [h2, if_false]
        have hgood : sgsGood cabs (it i) := ⟨eq_false_of_ne_true h1, h2⟩
        by_cases h3 : sgsConverged cabs tol (it i)
        · rw [sgsConverged] at h3
          simp only [h3, if_true]
          constructor
          · intro _
            exact ⟨0, by omega, fun l hl => absurd hl (by omega),
              by simpa using hgood, by simpa [sgsConverged] using h3⟩
          · intro _; trivial
        · rw [sgsConverged] at h3
          simp only [h3, if_false]
          rw [ih (i + 1)]
          constructor
          · rintro ⟨j, hj, hall, hg, hc⟩
            refine ⟨j + 1, by omega, ?_, ?_, ?_⟩
            · intro l hl
              match l with
              | 0 => exact ⟨by simpa using hgood, by simpa [sgsConverged] using h3⟩
              | l + 1 =>
                have h4 := hall l (by omega)
                have heq : i + (l + 1) = i + 1 + l := by omega
                rw [heq]
                exact h4
            · have heq : i + (j + 1) = i + 1 + j := by omega
              rw [heq]
              exact hg
            · have heq : i + (j + 1) = i + 1 + j := by omega
              rw [heq]
              exact hc
          · rintro ⟨j, hj, hall, hg, hc⟩
            match j with
            | 0 => exact absurd (by simpa [sgsConverged] using hc) h3
            | j + 1 =>
              refine ⟨j, by omega, ?_, ?_, ?_⟩
              · intro l hl
                have h4 := hall (l + 1) (by omega)
                have heq : i + 1 + l = i + (l + 1) := by omega
                rw [heq]
                exact h4
              · have heq : i + 1 + j = i + (j + 1) := by omega
                rw [heq]
                exact hg
              · have heq : i + 1 + j = i + (j + 1) := by omega
                rw [heq]
                exact hc

/-- Helper: an `if converged then ok else error` wrapper is ok exactly when
the flag is set. -/
theorem capWrap_ok_iff {σ : Type} (r : Bool × σ) (e : String) :
    (if r.1 then Except.ok r.2 else (Except.error e : Except String σ)).isOk
      = true ↔ r.1 = true := by
  rcases r with ⟨b, s⟩
  cases b <;> simp [Except.isOk, Except.toBool]

/-- Helper: an `if converged then ok else error` wrapper with a cleared flag
is the error. -/
theorem capWrap_error {σ : Type} (r : Bool × σ) (e : String) (h : r.1 = false) :
    (if r.1 then Except.ok r.2 else (Except.error e : Except String σ))
      = Except.error e := by
  rcases r with ⟨b, s⟩
  cases b
  · rfl
  · exact absurd h (by simp)

/-- Helper: variant of `capWrap_ok_iff` with a mapped success value. -/
theorem capWrapMap_ok_iff {σ K : Type} (r : Bool × σ) (f : σ → K) (e : String) :
    (if r.1 then Except.ok (f r.2) else (Except.error e : Except String K)).isOk
      = true ↔ r.1 = true := by
  rcases r with ⟨b, s⟩
  cases b <;> simp [Except.isOk, Except.toBool]

/-- Helper: variant of `capWrap_error` with a mapped success value. -/
theorem capWrapMap_error {σ K : Type} (r : Bool × σ) (f : σ → K) (e : String)
    (h : r.1 = false) :
    (if r.1 then Except.ok (f r.2) else (Except.error e : Except String K))
      = Except.error e := by
  rcases r with ⟨b, s⟩
  cases b
  · rfl
  · exact absurd h (by simp)

/-! ### Claim theorems C1-C2 -/

/-- Claim C1: in the Arnoldi convergence test, a wanted Ritz pair `(λ_i, s_i)`
is counted as converged exactly when `‖f‖·|S[last, i]| < 2ε·max(1, |λ_i|)`,
the number of converged pairs is the number of indices passing this test, and
the test as a whole succeeds exactly when all `k` wanted pairs pass it. -/
theorem arnoldiConverged_spec (rNorm : ℝ) (m k : ℕ) (vecs : ℕ → ℕ → ℂ)
    (vals : ℕ → ℂ) :
    ((arnoldiConverged Complex.abs rNorm m k vecs vals).converged = true ↔
      ∀ i < k, rNorm * Complex.abs (vecs (m - 1) i) <
        2 * epsilon * max 1 (Complex.abs (vals i))) ∧
    (arnoldiConverged Complex.abs rNorm m k vecs vals).numConverged =
      ((List.range k).filter fun i =>
        decide (arnoldiPairConverged Complex.abs rNorm m vecs vals i)).length := by
  constructor
  · unfold arnoldiConverged
    simp only [beq_iff_eq]
    constructor
    · intro hcount i hik
      by_contra hnot
      have hlt : ((List.range k).countP fun i =>
          decide (arnoldiPairConverged Complex.abs rNorm m vecs vals i)) < k := by
        have hle := List.countP_le_length
          (p := fun i => decide (arnoldiPairConverged Complex.abs rNorm m vecs vals i))
          (l := List.range k)
        rw [List.length_range] at hle
        rcases lt_or_eq_of_le hle with h | h
        · exact h
        · exfalso
          have := (List.countP_eq_length
            (p := fun i => decide (arnoldiPairConverged Complex.abs rNorm m vecs vals i))
            (l := List.range k)).mp (by simpa using h)
          have hmem : i ∈ List.range k := List.mem_range.mpr hik
          have := this i hmem
          simp only [decide_eq_true_eq] at this
          exact hnot this
      omega
    · intro hall
      have : ∀ a ∈ List.range k,
          (fun i => decide (arnoldiPairConverged Complex.abs rNorm m vecs vals i)) a = true := by
        intro a ha
        simp only [decide_eq_true_eq]
        exact hall a (List.mem_range.mp ha)
      have := List.countP_eq_length
        (p := fun i => decide (arnoldiPairConverged Complex.abs rNorm m vecs vals i))
        (l := List.range k) |>.mpr this
      simpa using this
  · unfold arnoldiConverged
    simp [List.countP_eq_length_filter]

/-- Claim C2: the implicit restart's shifts are exactly the Ritz values at
positions `[start, krylovDim)` of the Ritz value list, with
`start = min(k + numConverged, k + (krylovDim-k)/2)`, and for every value of
`numConverged` the restart position never exceeds `k + (krylovDim-k)/2`. -/
theorem arnoldiRestart_spec (k numConverged krylovDim : ℕ) (eigvals : List ℂ)
    (hlen : eigvals.length = krylovDim) :
    arnoldiRestartStart k numConverged krylovDim ≤ k + (krylovDim - k) / 2 ∧
    (arnoldiUnwanted eigvals (arnoldiRestartStart k numConverged krylovDim)).length =
      krylovDim - arnoldiRestartStart k numConverged krylovDim ∧
    ∀ (j : ℕ) (hj : j < (arnoldiUnwanted eigvals
        (arnoldiRestartStart k numConverged krylovDim)).length),
      (arnoldiUnwanted eigvals
          (arnoldiRestartStart k numConverged krylovDim)).get ⟨j, hj⟩ =
        eigvals.get ⟨arnoldiRestartStart k numConverged krylovDim + j, by
          simp [arnoldiUnwanted] at hj; omega⟩ := by
  refine ⟨min_le_right _ _, ?_, ?_⟩
  · simp [arnoldiUnwanted, hlen]
  · intro j hj
    simp only [arnoldiUnwanted, List.get_eq_getElem] at hj ⊢
    rw [List.getElem_drop]

/-- Witness for C2 at `k = 1`, `numConverged = 0`, `krylovDim = 3`. -/
theorem arnoldiRestart_spec_witness :
    ([(0 : ℂ), 1, 2].length = 3) ∧
    (arnoldiRestartStart 1 0 3 ≤ 1 + (3 - 1) / 2 ∧
    (arnoldiUnwanted [(0 : ℂ), 1, 2] (arnoldiRestartStart 1 0 3)).length =
      3 - arnoldiRestartStart 1 0 3 ∧
    ∀ (j : ℕ) (hj : j < (arnoldiUnwanted [(0 : ℂ), 1, 2]
        (arnoldiRestartStart 1 0 3)).length),
      (arnoldiUnwanted [(0 : ℂ), 1, 2]
          (arnoldiRestartStart 1 0 3)).get ⟨j, hj⟩ =
        [(0 : ℂ), 1, 2].get ⟨arnoldiRestartStart 1 0 3 + j, by
          simp [arnoldiUnwanted, arnoldiRestartStart] at hj ⊢; omega⟩) :=
  ⟨by simp, arnoldiRestart_spec 1 0 3 [(0 : ℂ), 1, 2] (by simp)⟩

/-- Claim C3: the three iterative routines are bounded by their hard caps
(32 inner shifted-QR sweeps per unreduced Hessenberg block, 64 outer Arnoldi
restarts with the default options, 16 inverse-iteration steps), succeed
exactly when some iteration within the cap meets the routine's convergence
criterion, and return a "not converged" error when the cap is reached without
meeting it. -/
theorem iterationCaps_spec :
    (∀ (σ : Type) (step : σ → σ) (deflated : σ → Bool) (s : σ),
      ((eigSolveBlock step deflated s).isOk = true ↔
        ∃ i < 32, deflated (step^[i + 1] s) = true) ∧
      ((∀ i < 32, ¬deflated (step^[i + 1] s) = true) →
        eigSolveBlock step deflated s = Except.error "not converged")) ∧
    (∀ (σ : Type) (iterate : σ → ArnoldiIterData ℂ ℝ × σ)
        (restart : σ → ℕ → σ) (k : ℕ) (s : σ),
      NewArnoldiOptions.maxIterations = 64 ∧
      ((arnoldiSolve Complex.abs k iterate restart
          NewArnoldiOptions.maxIterations s).isOk = true ↔
        ∃ i < 64, arnoldiConvAt Complex.abs k iterate
          ((arnoldiStep Complex.abs k iterate restart)^[i] s) = true) ∧
      ((∀ i < 64, ¬arnoldiConvAt Complex.abs k iterate
          ((arnoldiStep Complex.abs k iterate restart)^[i] s) = true) →
        arnoldiSolve Complex.abs k iterate restart
          NewArnoldiOptions.maxIterations s = Except.error "not converged")) ∧
    (∀ (σ : Type) (step : σ → σ) (resNorm : σ → ℝ) (aNorm : ℝ)
        (rayleigh : σ → ℂ) (s : σ),
      ((inverseIteration step resNorm aNorm rayleigh s).isOk = true ↔
        ∃ i < 16, resNorm (step^[i + 1] s) < epsilon * aNorm) ∧
      ((∀ i < 16, ¬resNorm (step^[i + 1] s) < epsilon * aNorm) →
        inverseIteration step resNorm aNorm rayleigh s =
          Except.error "not converged")) := by
  refine ⟨?_, ?_, ?_⟩
  · intro σ step deflated s
    have hiff := eigInnerLoop_true_iff step deflated 32 s
    constructor
    · have h1 : (eigSolveBlock step deflated s).isOk = true ↔
          (eigInnerLoop step deflated 32 s).1 = true :=
        capWrap_ok_iff (eigInnerLoop step deflated 32 s) "not converged"
      exact h1.trans hiff
    · intro hnone
      have hfalse : (eigInnerLoop step deflated 32 s).1 = false := by
        rcases hb : (eigInnerLoop step deflated 32 s).1 with _ | _
        · rfl
        · rcases hiff.mp hb with ⟨i, hi, hd⟩
          exact absurd hd (hnone i hi)
      exact capWrap_error (eigInnerLoop step deflated 32 s) "not converged" hfalse
  · intro σ iterate restart k s
    have h64 : NewArnoldiOptions.maxIterations = 64 := rfl
    have hiff := arnoldiLoop_true_iff Complex.abs k iterate restart
      NewArnoldiOptions.maxIterations s
    rw [h64] at hiff
    refine ⟨rfl, ?_, ?_⟩
    · have h1 : (arnoldiSolve Complex.abs k iterate restart
            NewArnoldiOptions.maxIterations s).isOk = true ↔
          (arnoldiLoop Complex.abs k iterate restart
            NewArnoldiOptions.maxIterations s).1 = true :=
        capWrap_ok_iff (arnoldiLoop Complex.abs k iterate restart
          NewArnoldiOptions.maxIterations s) "not converged"
      refine h1.trans ?_
      rw [h64]
      exact hiff
    · intro hnone
      have hfalse : (arnoldiLoop Complex.abs k iterate restart
          NewArnoldiOptions.maxIterations s).1 = false := by
        rcases hb : (arnoldiLoop Complex.abs k iterate restart
            NewArnoldiOptions.maxIterations s).1 with _ | _
        · rfl
        · rw [h64] at hb
          rcases hiff.mp hb with ⟨i, hi, hd⟩
          exact absurd hd (hnone i hi)
      exact capWrap_error (arnoldiLoop Complex.abs k iterate restart
        NewArnoldiOptions.maxIterations s) "not converged" hfalse
  · intro σ step resNorm aNorm rayleigh s
    have hiff := inverseIterationLoop_true_iff step resNorm aNorm 16 s
    constructor
    · have h1 : (inverseIteration step resNorm aNorm rayleigh s).isOk = true ↔
          (inverseIterationLoop step resNorm aNorm 16 s).1 = true :=
        capWrapMap_ok_iff (inverseIterationLoop step resNorm aNorm 16 s)
          rayleigh "not converged"
      exact h1.trans hiff
    · intro hnone
      have hfalse : (inverseIterationLoop step resNorm aNorm 16 s).1 = false := by
        rcases hb : (inverseIterationLoop step resNorm aNorm 16 s).1 with _ | _
        · rfl
        · rcases hiff.mp hb with ⟨i, hi, hd⟩
          exact absurd hd (hnone i hi)
      exact capWrapMap_error (inverseIterationLoop step resNorm aNorm 16 s)
        rayleigh "not converged" hfalse

/-- Claim C4: `SearchGroundState` has default options `maxIterations = 32` and
`tol = 1e-6`; it succeeds exactly when some iteration within the cap passes
both sanity checks (sweeps succeed, `|⟨ψ|ψ⟩| ≥ ε`) and meets the convergence
criterion `|⟨H²⟩ - ⟨H⟩²| < tol·max(|⟨H²⟩|, 1)` on the ⟨ψ|ψ⟩-normalized
values, after all earlier iterations passed the checks but missed the
criterion; in particular it errors when `|⟨ψ|ψ⟩| < ε` in the first iteration,
and errors when the criterion is never met within `maxIterations`. -/
theorem searchGroundState_spec :
    ((NewSearchGroundStateOptions : SearchGroundStateOptions ℝ).maxIterations = 32 ∧
      (NewSearchGroundStateOptions : SearchGroundStateOptions ℝ).tol = 1e-6) ∧
    ∀ (it : ℕ → SweepData ℂ) (opt : SearchGroundStateOptions ℝ),
      (SearchGroundState Complex.abs it opt = Except.ok () ↔
        ∃ j < opt.maxIterations,
          (∀ l < j, sgsGood Complex.abs (it l) ∧
            ¬sgsConverged Complex.abs opt.tol (it l)) ∧
          sgsGood Complex.abs (it j) ∧
            sgsConverged Complex.abs opt.tol (it j)) ∧
      ((it 0).sweepFail = false → Complex.abs (it 0).psiIP < epsilon →
        SearchGroundState Complex.abs it opt ≠ Except.ok ()) ∧
      ((∀ j < opt.maxIterations, ¬sgsConverged Complex.abs opt.tol (it j)) →
        SearchGroundState Complex.abs it opt ≠ Except.ok ()) := by
  refine ⟨⟨rfl, by norm_num [NewSearchGroundStateOptions]⟩, ?_⟩
  intro it opt
  have hiff := searchGroundStateLoop_ok_iff Complex.abs opt.tol it
    opt.maxIterations 0
  simp only [Nat.zero_add] at hiff
  refine ⟨hiff, ?_, ?_⟩
  · intro hsw hpsi hok
    rcases hiff.mp hok with ⟨j, hj, hall, hg, hc⟩
    match j with
    | 0 => exact absurd hpsi hg.2
    | j + 1 => exact absurd hpsi (hall 0 (by omega)).1.2
  · intro hnone hok
    rcases hiff.mp hok with ⟨j, hj, hall, hg, hc⟩
    exact absurd hc (hnone j hj)

end QIsing

namespace QIsing

/-! ### Eigen sorting (`sortEigen`, part_000 lines 854-885)

The Go code sorts the value tensor with `sort.Sort` under a comparator `fn`
while `Swap` exchanges the matching columns of the `right`/`left` eigenvector
matrices, so the synced arrays always undergo one common permutation.  The
embedding keeps each value paired with its columns in one list of tuples and
sorts it by the non-strict order `le a b ↔ ¬(fn b a < 0)` that `sort.Sort`
establishes. -/

/-- Embedding of `sortEigen`: sort the zipped value/column list by the order
induced by the comparator. -/
def sortEigen {α : Type} (le : α → α → Prop) [DecidableRel le] (l : List α) :
    List α :=
  l.insertionSort le

/-! ### SVD post-processing (`SVD` and `svd`, part_000 lines 669-788) -/

/-- Sign-absorption pass of `svd` (part_000 lines 768-775): a diagonal value
with negative real part is negated together with its `U` column; each list
element pairs a diagonal value with its `U` and `V` columns. -/
def svdMakeNonneg {K R' : Type} [Field K] [LinearOrderedField R'] (re : K → R')
    (l : List (K × (ℕ → K) × (ℕ → K))) : List (K × (ℕ → K) × (ℕ → K)) :=
  l.map fun p => if re p.1 < 0 then (-p.1, fun j => -p.2.1 j, p.2.2) else p

/-- Descending sort of `svd` (part_000 lines 777-785): `sortEigen` with the
negated real-part comparator, permuting `U` and `V` columns in lockstep. -/
def svdPostprocess {K R' : Type} [Field K] [LinearOrderedField R'] (re : K → R')
    (l : List (K × (ℕ → K) × (ℕ → K))) : List (K × (ℕ → K) × (ℕ → K)) :=
  sortEigen (fun a b => re b.1 ≤ re a.1) (svdMakeNonneg re l)

/-- Embedding of the `SVD` dispatch (part_000 lines 669-675): the inner `svd`
is a function from the input matrix to the `(s, u, v)` results; for `m < n`
it runs on the conjugate transpose and the `U` and `V` output slots are
swapped. -/
def SVDDispatch {M : Type} (m n : ℕ) (transp : M → M) (inner : M → M × M × M)
    (a : M) : M × M × M :=
  if n ≤ m then inner a
  else
    let r := inner (transp a)
    (r.1, r.2.2, r.2.1)

/-- Claim C7: the eigenvalue sort of `Eig.Solve` returns the eigenpair list
sorted ascending by real part, and the output pairs are a permutation of the
input pairs, so each eigenvector column stays attached to its eigenvalue. -/
theorem eigSolveSorted_spec (V : Type) (l : List (ℂ × V)) :
    (sortEigen (fun a b : ℂ × V => a.1.re ≤ b.1.re) l).Perm l ∧
    List.Sorted (fun a b : ℂ × V => a.1.re ≤ b.1.re)
      (sortEigen (fun a b : ℂ × V => a.1.re ≤ b.1.re) l) := by
  constructor
  · exact List.perm_insertionSort _ l
  · haveI h1 : IsTotal (ℂ × V) (fun a b => a.1.re ≤ b.1.re) :=
      ⟨fun a b => le_total _ _⟩
    haveI h2 : IsTrans (ℂ × V) (fun a b => a.1.re ≤ b.1.re) :=
      ⟨fun a b c hab hbc => le_trans hab hbc⟩
    exact List.sorted_insertionSort _ l

/-- Claim C6: `SVD` with `m < n` runs the inner solver on the conjugate
transpose with `U`/`V` swapped; and the post-processing of `svd` yields
diagonal values of non-negative real part, sorted descending by real part,
where every output triple is an input triple possibly with the value and its
`U` column negated, and the `U`, `V` columns are permuted in lockstep with
the values. -/
theorem svdDispatchPost_spec (M : Type) (m n : ℕ) (transp : M → M)
    (inner : M → M × M × M) (a : M) (hmn : m < n)
    (l : List (ℂ × (ℕ → ℂ) × (ℕ → ℂ))) :
    SVDDispatch m n transp inner a =
      ((inner (transp a)).1, (inner (transp a)).2.2, (inner (transp a)).2.1) ∧
    (∀ p ∈ svdPostprocess Complex.re l, 0 ≤ p.1.re) ∧
    (svdPostprocess Complex.re l).Perm (svdMakeNonneg Complex.re l) ∧
    List.Sorted (fun p q : ℂ × (ℕ → ℂ) × (ℕ → ℂ) => q.1.re ≤ p.1.re)
      (svdPostprocess Complex.re l) ∧
    (∀ q ∈ svdPostprocess Complex.re l, ∃ p ∈ l,
      q = p ∨ q = (-p.1, fun j => -p.2.1 j, p.2.2)) := by
  refine ⟨?_, ?_, ?_, ?_, ?_⟩
  · rw [SVDDispatch, if_neg (by omega)]
  · intro p hp
    have hmem : p ∈ svdMakeNonneg Complex.re l :=
      (List.perm_insertionSort _ _).mem_iff.mp hp
    rcases List.mem_map.mp hmem with ⟨q, _, hq⟩
    by_cases hneg : q.1.re < 0
    · rw [if_pos hneg] at hq
      rw [← hq]
      simp only [Complex.neg_re]
      linarith
    · rw [if_neg hneg] at hq
      rw [← hq]
      linarith [not_lt.mp hneg]
  · exact List.perm_insertionSort _ _
  · haveI h1 : IsTotal (ℂ × (ℕ → ℂ) × (ℕ → ℂ))
        (fun p q => q.1.re ≤ p.1.re) := ⟨fun a b => le_total _ _⟩
    haveI h2 : IsTrans (ℂ × (ℕ → ℂ) × (ℕ → ℂ))
        (fun p q => q.1.re ≤ p.1.re) :=
      ⟨fun a b c hab hbc => le_trans hbc hab⟩
    exact List.sorted_insertionSort _ _
  · intro q hq
    have hmem : q ∈ svdMakeNonneg Complex.re l :=
      (List.perm_insertionSort _ _).mem_iff.mp hq
    rcases List.mem_map.mp hmem with ⟨p, hpl, hp⟩
    refine ⟨p, hpl, ?_⟩
    by_cases hneg : p.1.re < 0
    · rw [if_pos hneg] at hp
      right
      exact hp.symm
    · rw [if_neg hneg] at hp
      left
      exact hp.symm

/-- Witness for C6 at `m = 1 < n = 2` with a one-element diagonal list. -/
theorem svdDispatchPost_spec_witness :
    (1 : ℕ) < 2 ∧
    (SVDDispatch 1 2 (id : ℕ → ℕ) (fun a => (a, a + 1, a + 2)) 5 =
        ((5 : ℕ), 7, 6) ∧
      (∀ p ∈ svdPostprocess Complex.re
          [((1 : ℂ), fun _ : ℕ => (0 : ℂ), fun _ : ℕ => (0 : ℂ))], 0 ≤ p.1.re)) := by
  refine ⟨by omega, ?_, ?_⟩
  · have h := (svdDispatchPost_spec ℕ 1 2 id (fun a => (a, a + 1, a + 2)) 5
      (by omega) []).1
    simpa using h
  · exact (svdDispatchPost_spec ℕ 1 2 id (fun a => (a, a + 1, a + 2)) 5
      (by omega)
      [((1 : ℂ), fun _ : ℕ => (0 : ℂ), fun _ : ℕ => (0 : ℂ))]).2.1

end QIsing

namespace QIsing

/-! ### Ising MPO (hamiltonian.go lines 7-71)

MPO sites are matrices of 2x2 operator blocks; a site of bond shape
`rows x cols` stores one `Matrix (Fin 2) (Fin 2) ℂ` block per bond index
pair, i.e. the rank-4 tensor with axes (left, right, up, down). -/

/-- Operator blocks of the MPO construction: 2x2 complex matrices. -/
abbrev OpBlock := Matrix (Fin 2) (Fin 2) ℂ

/-- Embedding of `pauliX` (hamiltonian.go lines 16-19). -/
def pauliX : OpBlock := !![0, 1; 1, 0]

/-- Embedding of `pauliZ` (hamiltonian.go lines 24-27). -/
def pauliZ : OpBlock := !![1, 0; 0, -1]

/-- One MPO site: a matrix of operator blocks of some bond shape. -/
structure MPOSite where
  rows : ℕ
  cols : ℕ
  t : Matrix (Fin rows) (Fin cols) OpBlock

/-- Embedding of `newMPO` (hamiltonian.go lines 56-71), at the 3x3 bond shape
of the Ising bulk tensor: the first site is the slice
`w.Slice({{d0-1, d0}, ...})` (the last row of `w`), the bulk repeats `w`
`n[0]-2` times, and the last site is the slice `w.Slice({..., {0, 1}, ...})`
(the first column of `w`). -/
def newMPO (w : Matrix (Fin 3) (Fin 3) OpBlock) (numSites : ℕ) : List MPOSite :=
  [⟨1, 3, Matrix.of fun _ j => w 2 j⟩] ++
    List.replicate (numSites - 2) ⟨3, 3, w⟩ ++
    [⟨3, 1, Matrix.of fun i _ => w i 0⟩]

/-- Bulk tensor of `Ising` (hamiltonian.go lines 44-54), translated from the
source literal `{{identity, zero, zero}, {pauliZ, zero, zero},
{mul(-h, pauliX), mul(-1, pauliZ), identity}}`. -/
def isingW (h : ℂ) : Matrix (Fin 3) (Fin 3) OpBlock :=
  !![1, 0, 0; pauliZ, 0, 0; (-h) • pauliX, (-1 : ℂ) • pauliZ, 1]

/-- Embedding of `Ising` (hamiltonian.go lines 44-54) for a lattice of
`numSites = n[0]` sites. -/
def Ising (numSites : ℕ) (h : ℂ) : List MPOSite := newMPO (isingW h) numSites

/-- Bulk tensor as written in the specification:
`W = [[I, 0, 0], [σ^z, 0, 0], [−h σ^x, −σ^z, I]]`. -/
def isingWSpec (h : ℂ) : Matrix (Fin 3) (Fin 3) OpBlock :=
  !![1, 0, 0; pauliZ, 0, 0; -h • pauliX, -pauliZ, 1]

/-- Claim C8: for every lattice length `N ≥ 2` and field strength `h`, the
Ising MPO has length `N`, its first site is the last row of the bulk tensor
`W`, every bulk site is `W` itself, its last site is the first column of `W`,
and `W` equals the block matrix `[[I,0,0],[σ^z,0,0],[−h σ^x,−σ^z,I]]` stated
in the specification. -/
theorem isingMPO_spec (N : ℕ) (h : ℂ) (hN : 2 ≤ N) :
    (Ising N h).length = N ∧
    (Ising N h).head? = some ⟨1, 3, Matrix.of fun _ j => isingW h 2 j⟩ ∧
    (∀ i, 0 < i → i < N - 1 → (Ising N h)[i]? = some ⟨3, 3, isingW h⟩) ∧
    (Ising N h).getLast? = some ⟨3, 1, Matrix.of fun i _ => isingW h i 0⟩ ∧
    isingW h = isingWSpec h := by
  refine ⟨?_, ?_, ?_, ?_, ?_⟩
  · simp [Ising, newMPO]
    omega
  · simp [Ising, newMPO]
  · intro i h0 hi
    simp only [Ising, newMPO, List.cons_append, List.nil_append]
    rw [List.getElem?_cons]
    rw [if_neg (by omega)]
    rw [List.getElem?_append_left (by simp; omega)]
    rw [List.getElem?_replicate]
    rw [if_pos (by omega)]
  · simp only [Ising, newMPO, List.cons_append, List.nil_append]
    rw [← List.cons_append, List.getLast?_concat]
  · have hz : (-1 : ℂ) • pauliZ = -pauliZ := by rw [neg_smul, one_smul]
    rw [isingW, isingWSpec, hz]

/-- Witness for C8 at `N = 2`, `h = 2`. -/
theorem isingMPO_spec_witness :
    2 ≤ 2 ∧
    ((Ising 2 (2 : ℂ)).length = 2 ∧
      (Ising 2 (2 : ℂ)).head? =
        some ⟨1, 3, Matrix.of fun _ j => isingW 2 2 j⟩ ∧
      (∀ i, 0 < i → i < 2 - 1 → (Ising 2 (2 : ℂ))[i]? = some ⟨3, 3, isingW 2⟩) ∧
      (Ising 2 (2 : ℂ)).getLast? =
        some ⟨3, 1, Matrix.of fun i _ => isingW 2 i 0⟩ ∧
      isingW 2 = isingWSpec 2) :=
  ⟨by omega, isingMPO_spec 2 2 (by omega)⟩

end QIsing

namespace QIsing

/-! ### COO sparse matrices (exactdiag/mat/mat.go lines 53-237)

The scalar type `complex64` is modelled by a field with decidable equality,
instantiated at `ℂ` in the claim theorems; the Go map `b.m` is modelled by
lookup in the entry list (entry positions are unique under the invariant). -/

/-- Entry of a COO matrix (`vRowCol`, mat.go lines 53-57). -/
structure VRowCol (K : Type) where
  v : K
  row : ℕ
  col : ℕ

/-- COO matrix (`COO`, mat.go lines 59-65). -/
structure COO (K : Type) where
  rows : ℕ
  cols : ℕ
  data : List (VRowCol K)

/-- Row-major entry order of `rowMajor` (mat.go lines 594-599), as the
non-strict order established by `slices.SortFunc`. -/
def rowMajorLE {K : Type} (a b : VRowCol K) : Prop :=
  a.row < b.row ∨ (a.row = b.row ∧ a.col ≤ b.col)

instance {K : Type} (a b : VRowCol K) : Decidable (rowMajorLE a b) := by
  unfold rowMajorLE; infer_instance

/-- Map lookup `b.m[byx]` with the Go zero value for a missing key. -/
def cooLookup {K : Type} [Field K] [DecidableEq K]
    (data : List (VRowCol K)) (p : ℕ × ℕ) : K :=
  match data.find? fun e => decide (e.row = p.1 ∧ e.col = p.2) with
  | some e => e.v
  | none => 0

/-- Map deletion `delete(b.m, byx)`. -/
def eraseKey {K : Type} (data : List (VRowCol K)) (p : ℕ × ℕ) :
    List (VRowCol K) :=
  data.filter fun e => decide (¬(e.row = p.1 ∧ e.col = p.2))

/-- Broadcast position `byx` of `COO.Add`/`COO.Mul` (mat.go lines 163-172,
196-205): scalar, column, or same-shape broadcasting. -/
def cooBroadcastPos (brows bcols arows acols arow acol : ℕ) : ℕ × ℕ :=
  if brows = 1 ∧ bcols = 1 then (0, 0)
  else if brows = arows ∧ bcols = 1 then (arow, 0)
  else (arow, acol)

/-- Shape compatibility of `COO.Add`/`COO.Mul`; the remaining case panics. -/
def cooShapeCompat (brows bcols arows acols : ℕ) : Prop :=
  (brows = 1 ∧ bcols = 1) ∨ (brows = arows ∧ bcols = 1) ∨
    (brows = arows ∧ bcols = acols)

instance (brows bcols arows acols : ℕ) :
    Decidable (cooShapeCompat brows bcols arows acols) := by
  unfold cooShapeCompat; infer_instance

/-- Main loop of `COO.Add` (mat.go lines 162-177): for each entry of `a`, in
order, read `bv = b.m[byx]`, delete the key from the map, and replace the
value by `av.v + c*bv`; returns the updated entries and the leftover map. -/
def cooAddLoop {K : Type} [Field K] [DecidableEq K] (c : K)
    (pos : VRowCol K → ℕ × ℕ) :
    List (VRowCol K) → List (VRowCol K) → List (VRowCol K) × List (VRowCol K)
  | [], bm => ([], bm)
  | e :: rest, bm =>
    let p := pos e
    let bv := cooLookup bm p
    let r := cooAddLoop c pos rest (eraseKey bm p)
    ({ v := e.v + c * bv, row := e.row, col := e.col } :: r.1, r.2)

/-- Embedding of `COO.Add` (mat.go lines 155-187): update `a`'s entries,
drop the zero-valued ones, append `c*bv` entries for the leftover keys of
`b`, and sort row-major; `none` models the dimension panic. -/
def cooAdd {K : Type} [Field K] [DecidableEq K] (c : K) (a b : COO K) :
    Option (COO K) :=
  if cooShapeCompat b.rows b.cols a.rows a.cols then
    let lp := cooAddLoop c
      (fun e => cooBroadcastPos b.rows b.cols a.rows a.cols e.row e.col)
      a.data b.data
    let kept := lp.1.filter fun e => decide (¬e.v = 0)
    let appended := lp.2.map fun e =>
      ({ v := c * e.v, row := e.row, col := e.col } : VRowCol K)
    some { rows := a.rows, cols := a.cols,
           data := (kept ++ appended).insertionSort rowMajorLE }
  else none

/-- Embedding of `COO.Mul` (mat.go lines 189-215): multiply each entry of `a`
by the broadcast value of `b` (no deletion this time) and drop the
zero-valued results; the order of the surviving entries is unchanged. -/
def cooMul {K : Type} [Field K] [DecidableEq K] (a b : COO K) :
    Option (COO K) :=
  if cooShapeCompat b.rows b.cols a.rows a.cols then
    let updated := a.data.map fun e =>
      ({ v := e.v * cooLookup b.data
             (cooBroadcastPos b.rows b.cols a.rows a.cols e.row e.col),
         row := e.row, col := e.col } : VRowCol K)
    some { rows := a.rows, cols := a.cols,
           data := updated.filter fun e => decide (¬e.v = 0) }
  else none

/-- Embedding of `COO.Kron` (mat.go lines 217-237): the original entries are
zeroed in place and the Kronecker products appended (walking `a` backwards),
then zero values are dropped and the list is sorted row-major. -/
def cooKron {K : Type} [Field K] [DecidableEq K] (a b : COO K) : COO K :=
  let zeroed := a.data.map fun e => ({ v := 0, row := e.row, col := e.col } : VRowCol K)
  let products := (a.data.reverse.map fun av => b.data.map fun bv =>
    ({ v := av.v * bv.v, row := av.row * b.rows + bv.row,
       col := av.col * b.cols + bv.col } : VRowCol K)).flatten
  { rows := a.rows * b.rows, cols := a.cols * b.cols,
    data := ((zeroed ++ products).filter fun e =>
      decide (¬e.v = 0)).insertionSort rowMajorLE }

/-- Invariant of claim C10: no stored entry is zero, and the entry list is
sorted in row-major order. -/
def COOInvariant {K : Type} [Field K] (m : COO K) : Prop :=
  (∀ e ∈ m.data, e.v ≠ 0) ∧ m.data.Pairwise rowMajorLE

/-- Invariant lifted to an optional result: every successfully returned
matrix satisfies the invariant. -/
def COOInvariantOpt {K : Type} [Field K] (o : Option (COO K)) : Prop :=
  ∀ r, o = some r → COOInvariant r

end QIsing

namespace QIsing

instance : IsTotal (VRowCol ℂ) rowMajorLE :=
  ⟨by intro a b; unfold rowMajorLE; omega⟩

instance : IsTrans (VRowCol ℂ) rowMajorLE :=
  ⟨by intro a b c; unfold rowMajorLE; omega⟩

/-- Helper: the leftover map of the `COO.Add` loop only contains entries of
the original map of `b`. -/
theorem cooAddLoop_leftover_mem {K : Type} [Field K] [DecidableEq K] (c : K)
    (pos : VRowCol K → ℕ × ℕ) :
    ∀ (l bm : List (VRowCol K)) (e : VRowCol K),
      e ∈ (cooAddLoop c pos l bm).2 → e ∈ bm := by
  intro l
  induction l with
  | nil => intro bm e he; simpa [cooAddLoop] using he
  | cons x xs ih =>
    intro bm e he
    simp only [cooAddLoop] at he
    have hmem := ih (eraseKey bm (pos x)) e he
    exact List.mem_of_mem_filter hmem

/-- Claim C10 (amended): `Mul` and `Kron` preserve the COO invariant (no
zero-valued entry, row-major sorted); `Add` preserves it provided the scalar
coefficient `c` is non-zero. -/
theorem cooOps_invariant_spec (a b : COO ℂ) (c : ℂ) :
    (COOInvariant a → COOInvariantOpt (cooMul a b)) ∧
    (COOInvariant a → COOInvariant b → COOInvariant (cooKron a b)) ∧
    (c ≠ 0 → COOInvariant a → COOInvariant b →
      COOInvariantOpt (cooAdd c a b)) := by
  refine ⟨?_, ?_, ?_⟩
  · intro hia r hr
    by_cases hcompat : cooShapeCompat b.rows b.cols a.rows a.cols
    · rw [cooMul, if_pos hcompat] at hr
      simp only [Option.some.injEq] at hr
      subst hr
      constructor
      · intro e he
        have := (List.mem_filter.mp he).2
        simpa using this
      · refine List.Pairwise.sublist (List.filter_sublist _) ?_
        refine List.Pairwise.map _ ?_ hia.2
        intro p q hpq
        unfold rowMajorLE at hpq ⊢
        simpa using hpq
    · rw [cooMul, if_neg hcompat] at hr
      exact absurd hr (by simp)
  · intro hia hib
    constructor
    · intro e he
      have hmem : e ∈ List.filter (fun e => decide (¬e.v = 0)) _ :=
        (List.perm_insertionSort rowMajorLE _).mem_iff.mp he
      have := (List.mem_filter.mp hmem).2
      simpa using this
    · exact List.sorted_insertionSort rowMajorLE _
  · intro hc0 hia hib r hr
    by_cases hcompat : cooShapeCompat b.rows b.cols a.rows a.cols
    · rw [cooAdd, if_pos hcompat] at hr
      simp only [Option.some.injEq] at hr
      subst hr
      constructor
      · intro e he
        have hmem := (List.perm_insertionSort rowMajorLE _).mem_iff.mp he
        rcases List.mem_append.mp hmem with hk | hap
        · have := (List.mem_filter.mp hk).2
          simpa using this
        · rcases List.mem_map.mp hap with ⟨x, hx, hxe⟩
          have hxb : x ∈ b.data := cooAddLoop_leftover_mem c _ a.data b.data x hx
          have hxv : x.v ≠ 0 := hib.1 x hxb
          rw [← hxe]
          exact mul_ne_zero hc0 hxv
      · exact List.sorted_insertionSort rowMajorLE _
    · rw [cooAdd, if_neg hcompat] at hr
      exact absurd hr (by simp)

/-- Witness for the amended C10 at a one-entry matrix and `c = 1`. -/
theorem cooOps_invariant_spec_witness :
    ((1 : ℂ) ≠ 0 ∧
      COOInvariant ({ rows := 1, cols := 1,
                      data := [{ v := (1 : ℂ), row := 0, col := 0 }] } : COO ℂ)) ∧
    (COOInvariantOpt (cooMul
        ({ rows := 1, cols := 1,
           data := [{ v := (1 : ℂ), row := 0, col := 0 }] } : COO ℂ)
        ({ rows := 1, cols := 1,
           data := [{ v := (1 : ℂ), row := 0, col := 0 }] } : COO ℂ)) ∧
      COOInvariant (cooKron
        ({ rows := 1, cols := 1,
           data := [{ v := (1 : ℂ), row := 0, col := 0 }] } : COO ℂ)
        ({ rows := 1, cols := 1,
           data := [{ v := (1 : ℂ), row := 0, col := 0 }] } : COO ℂ)) ∧
      COOInvariantOpt (cooAdd (1 : ℂ)
        ({ rows := 1, cols := 1,
           data := [{ v := (1 : ℂ), row := 0, col := 0 }] } : COO ℂ)
        ({ rows := 1, cols := 1,
           data := [{ v := (1 : ℂ), row := 0, col := 0 }] } : COO ℂ))) := by
  have hinv : COOInvariant ({ rows := 1, cols := 1,
                              data := [{ v := (1 : ℂ), row := 0, col := 0 }] } : COO ℂ) := by
    constructor
    · intro e he
      simp only [List.mem_singleton] at he
      subst he
      norm_num
    · simp
  have h := cooOps_invariant_spec
    ({ rows := 1, cols := 1,
       data := [{ v := (1 : ℂ), row := 0, col := 0 }] } : COO ℂ)
    ({ rows := 1, cols := 1,
       data := [{ v := (1 : ℂ), row := 0, col := 0 }] } : COO ℂ) 1
  exact ⟨⟨one_ne_zero, hinv⟩, h.1 hinv, h.2.1 hinv hinv,
    h.2.2 one_ne_zero hinv hinv⟩

/-- Counterexample for claim C10 as stated: `Add` with coefficient `c = 0`
appends a zero-valued entry for a position of `b` that is absent from `a`,
so the invariant does not survive even though both operands satisfy it. -/
theorem cooAdd_invariant_counterexample :
    COOInvariant ({ rows := 1, cols := 2,
                    data := [{ v := (1 : ℂ), row := 0, col := 0 }] } : COO ℂ) ∧
    COOInvariant ({ rows := 1, cols := 2,
                    data := [{ v := (1 : ℂ), row := 0, col := 1 }] } : COO ℂ) ∧
    cooAdd (0 : ℂ)
      ({ rows := 1, cols := 2,
         data := [{ v := (1 : ℂ), row := 0, col := 0 }] } : COO ℂ)
      ({ rows := 1, cols := 2,
         data := [{ v := (1 : ℂ), row := 0, col := 1 }] } : COO ℂ) =
      some ({ rows := 1, cols := 2,
              data := [{ v := (1 : ℂ), row := 0, col := 0 },
                 { v := (0 : ℂ), row := 0, col := 1 }] } : COO ℂ) ∧
    ¬COOInvariant ({ rows := 1, cols := 2,
                     data := [{ v := (1 : ℂ), row := 0, col := 0 },
               { v := (0 : ℂ), row := 0, col := 1 }] } : COO ℂ) := by
  refine ⟨?_, ?_, ?_, ?_⟩
  · constructor
    · intro e he
      simp only [List.mem_singleton] at he
      subst he
      norm_num
    · simp
  · constructor
    · intro e he
      simp only [List.mem_singleton] at he
      subst he
      norm_num
    · simp
  · rw [cooAdd, if_pos (by right; right; exact ⟨rfl, rfl⟩)]
    simp only [cooAddLoop, cooLookup, eraseKey, cooBroadcastPos]
    norm_num
    simp [List.find?, List.filter, List.insertionSort, List.orderedInsert,
      rowMajorLE]
  · intro hinv
    have := hinv.1 { v := (0 : ℂ), row := 0, col := 1 } (by simp)
    exact this rfl

end QIsing

namespace QIsing

/-! ### MPS inner product (`InnerProduct`, mps.go lines 93-113)

An MPS site is a rank-3 tensor with axes (left, up, right); extents are kept
alongside the entry function, and tensor contractions become sums over
`Finset.range` of the contracted extents. -/

/-- One MPS site: bond extents `l` (left), `r` (right), physical extent `d`
(up), and the entry function. -/
structure MPSSite (K : Type) where
  l : ℕ
  d : ℕ
  r : ℕ
  t : ℕ → ℕ → ℕ → K

/-- One step of the `InnerProduct` environment sweep (mps.go lines 102-107):
`fyi = Product(f, yi, {{fBottom, mpsLeft}})` followed by
`Product(f, xi.Conj(), fyi, {{mpsLeft, fTop}, {mpsUp, mpsUp}})`, so
`F'[a, b] = Σ_{p<x.l} Σ_{q<y.l} Σ_{s<x.d} conj(x[p,s,a]) F[p,q] y[q,s,b]`. -/
def ipStep {K : Type} [CommRing K] [StarRing K] (f : ℕ → ℕ → K)
    (x y : MPSSite K) : ℕ → ℕ → K :=
  fun a b => ∑ p ∈ Finset.range x.l, ∑ q ∈ Finset.range y.l,
    ∑ s ∈ Finset.range x.d, star (x.t p s a) * f p q * y.t q s b

/-- Environment sweep of `InnerProduct` over the site lists; the Go loop
indexes `y` by the loop index of `x`, so both lists advance together. -/
def ipEnvAux {K : Type} [CommRing K] [StarRing K] :
    (ℕ → ℕ → K) → List (MPSSite K) → List (MPSSite K) → ℕ → ℕ → K
  | f, [], _ => f
  | f, _ :: _, [] => f
  | f, x :: xs, y :: ys => ipEnvAux (ipStep f x y) xs ys

/-- Embedding of `InnerProduct` (mps.go lines 95-113): sweep the 1x1 all-ones
environment through the sites and read the (0,0) component. -/
def InnerProduct {K : Type} [CommRing K] [StarRing K]
    (x y : List (MPSSite K)) : K :=
  ipEnvAux (fun _ _ => 1) x y 0 0

/-- Bond-dimension chain of an MPS: the first left extent is `n`, adjacent
extents agree, and the final right extent is 1 (the shape invariant under
which the Go code runs without panicking). -/
def bondChain {K : Type} : ℕ → List (MPSSite K) → Prop
  | n, [] => n = 1
  | n, x :: xs => x.l = n ∧ bondChain x.r xs

/-- Helper: one conjugate-symmetry step of the environment sweep. -/
theorem ipStep_conj {K : Type} [CommRing K] [StarRing K] (x y : MPSSite K)
    (hd : x.d = y.d) (f g : ℕ → ℕ → K)
    (hfg : ∀ a b, f a b = star (g b a)) :
    ∀ a b, ipStep f x y a b = star (ipStep g y x b a) := by
  intro a b
  have hgf : ∀ p q, star (g p q) = f q p := fun p q => (hfg q p).symm
  unfold ipStep
  rw [star_sum]
  rw [Finset.sum_congr rfl fun p _ => star_sum ..]
  rw [Finset.sum_congr rfl fun p _ => Finset.sum_congr rfl fun q _ => star_sum ..]
  rw [Finset.sum_comm]
  rw [← hd]
  refine Finset.sum_congr rfl fun p _ => ?_
  refine Finset.sum_congr rfl fun q _ => ?_
  refine Finset.sum_congr rfl fun s _ => ?_
  rw [star_mul, star_mul, star_star, hgf]
  ring

/-- Helper: conjugate symmetry of the environment sweep, by induction over
the site lists. -/
theorem ipEnvAux_conj {K : Type} [CommRing K] [StarRing K] :
    ∀ (xs ys : List (MPSSite K)),
      List.Forall₂ (fun x y => MPSSite.d x = MPSSite.d y) xs ys →
      ∀ (f g : ℕ → ℕ → K), (∀ a b, f a b = star (g b a)) →
      ∀ a b, ipEnvAux f xs ys a b = star (ipEnvAux g ys xs b a) := by
  intro xs
  induction xs with
  | nil =>
    intro ys hf f g hfg a b
    cases hf
    exact hfg a b
  | cons x xs ih =>
    intro ys hf f g hfg a b
    cases hf with
    | cons hd htail =>
      exact ih _ htail _ _ (ipStep_conj _ _ hd f g hfg) a b

/-- Quadratic form of an environment tensor on the first `n` bond indices. -/
def quadForm {K : Type} [CommRing K] [StarRing K] (n : ℕ) (f : ℕ → ℕ → K)
    (w : ℕ → K) : K :=
  ∑ a ∈ Finset.range n, ∑ b ∈ Finset.range n, star (w a) * f a b * w b

/-- Positive semidefiniteness of an environment tensor on `n` bond
indices: every quadratic form value is real and non-negative. -/
def PSDOn (n : ℕ) (f : ℕ → ℕ → ℂ) : Prop :=
  ∀ w : ℕ → ℂ, 0 ≤ (quadForm n f w).re ∧ (quadForm n f w).im = 0

/-- Helper: rotate the innermost sum of a triple sum to the outside. -/
theorem sum_rot3 {M : Type} [AddCommMonoid M] (sP sQ sS : Finset ℕ)
    (T : ℕ → ℕ → ℕ → M) :
    ∑ p ∈ sP, ∑ q ∈ sQ, ∑ s ∈ sS, T p q s =
      ∑ s ∈ sS, ∑ p ∈ sP, ∑ q ∈ sQ, T p q s := by
  rw [Finset.sum_congr rfl fun p _ => Finset.sum_comm]
  exact Finset.sum_comm

/-- Helper: rotate the three innermost sums of a five-fold sum to the
outside. -/
theorem sum_reorder5 {M : Type} [AddCommMonoid M]
    (sA sB sP sQ sS : Finset ℕ) (U : ℕ → ℕ → ℕ → ℕ → ℕ → M) :
    ∑ a ∈ sA, ∑ b ∈ sB, ∑ p ∈ sP, ∑ q ∈ sQ, ∑ s ∈ sS, U a b p q s =
      ∑ s ∈ sS, ∑ p ∈ sP, ∑ q ∈ sQ, ∑ a ∈ sA, ∑ b ∈ sB, U a b p q s := by
  rw [Finset.sum_congr rfl fun a _ => Finset.sum_congr rfl fun b _ =>
    sum_rot3 sP sQ sS (U a b)]
  rw [sum_rot3 sA sB sS fun a b s => ∑ p ∈ sP, ∑ q ∈ sQ, U a b p q s]
  refine Finset.sum_congr rfl fun s _ => ?_
  rw [sum_rot3 sA sB sP fun a b p => ∑ q ∈ sQ, U a b p q s]
  refine Finset.sum_congr rfl fun p _ => ?_
  exact sum_rot3 sA sB sQ fun a b q => U a b p q s

/-- Helper: the quadratic form of one environment step is a sum over the
physical index of quadratic forms of the previous environment. -/
theorem quadForm_ipStep (x : MPSSite ℂ) (f : ℕ → ℕ → ℂ) (w : ℕ → ℂ) :
    quadForm x.r (ipStep f x x) w =
      ∑ s ∈ Finset.range x.d, quadForm x.l f
        (fun p => ∑ a ∈ Finset.range x.r, x.t p s a * w a) := by
  unfold quadForm ipStep
  simp only [star_sum, star_mul, Finset.sum_mul, Finset.mul_sum]
  rw [sum_reorder5]
  refine Finset.sum_congr rfl fun s _ => ?_
  refine Finset.sum_congr rfl fun p _ => ?_
  refine Finset.sum_congr rfl fun q _ => ?_
  rw [Finset.sum_comm]
  refine Finset.sum_congr rfl fun a _ => ?_
  refine Finset.sum_congr rfl fun b _ => ?_
  ring

/-- Helper: one environment step preserves positive semidefiniteness. -/
theorem psdOn_step (x : MPSSite ℂ) (f : ℕ → ℕ → ℂ) (hf : PSDOn x.l f) :
    PSDOn x.r (ipStep f x x) := by
  intro w
  rw [quadForm_ipStep]
  constructor
  · rw [Complex.re_sum]
    exact Finset.sum_nonneg fun s _ => (hf _).1
  · rw [Complex.im_sum]
    exact Finset.sum_eq_zero fun s _ => (hf _).2

/-- Helper: the all-ones 1x1 starting environment is positive
semidefinite. -/
theorem psdOn_one : PSDOn 1 fun _ _ => (1 : ℂ) := by
  intro w
  unfold quadForm
  simp only [Finset.sum_range_one, mul_one, Complex.star_def]
  rw [mul_comm]
  rw [Complex.mul_conj]
  constructor
  · simp [Complex.normSq_nonneg]
  · simp

/-- Helper: the final environment component of a self inner product is real
and non-negative, by induction along the bond chain. -/
theorem ipEnvAux_psd : ∀ (xs : List (MPSSite ℂ)) (f : ℕ → ℕ → ℂ) (n : ℕ),
    bondChain n xs → PSDOn n f →
    0 ≤ (ipEnvAux f xs xs 0 0).re ∧ (ipEnvAux f xs xs 0 0).im = 0 := by
  intro xs
  induction xs with
  | nil =>
    intro f n hchain hpsd
    have h1 : n = 1 := hchain
    subst h1
    have hq := hpsd fun _ => 1
    have hval : quadForm 1 f (fun _ => 1) = f 0 0 := by
      unfold quadForm
      simp
    rw [hval] at hq
    exact hq
  | cons x xs ih =>
    intro f n hchain hpsd
    rcases hchain with ⟨hl, htail⟩
    refine ih (ipStep f x x) x.r htail ?_
    refine psdOn_step x f ?_
    rw [hl]
    exact hpsd

/-- Claim C9: for equal-length MPSs with matching physical extents,
`InnerProduct` satisfies `⟨x|y⟩ = conj(⟨y|x⟩)`; and for every MPS whose bond
extents chain from 1 to 1, `⟨x|x⟩` is real and non-negative. -/
theorem innerProduct_spec :
    (∀ (x y : List (MPSSite ℂ)),
      List.Forall₂ (fun a b => MPSSite.d a = MPSSite.d b) x y →
      InnerProduct x y = star (InnerProduct y x)) ∧
    (∀ x : List (MPSSite ℂ), bondChain 1 x →
      0 ≤ (InnerProduct x x).re ∧ (InnerProduct x x).im = 0) := by
  constructor
  · intro x y hcompat
    exact ipEnvAux_conj x y hcompat _ _ (fun a b => (star_one ℂ).symm) 0 0
  · intro x hchain
    exact ipEnvAux_psd x _ 1 hchain psdOn_one

/-- Witness for C9 at the single-site MPS with all extents 1 and entry 1. -/
theorem innerProduct_spec_witness :
    List.Forall₂ (fun a b => MPSSite.d a = MPSSite.d b)
      [({ l := 1, d := 1, r := 1, t := fun _ _ _ => 1 } : MPSSite ℂ)]
      [({ l := 1, d := 1, r := 1, t := fun _ _ _ => 1 } : MPSSite ℂ)] ∧
    bondChain 1
      [({ l := 1, d := 1, r := 1, t := fun _ _ _ => 1 } : MPSSite ℂ)] ∧
    InnerProduct
        [({ l := 1, d := 1, r := 1, t := fun _ _ _ => 1 } : MPSSite ℂ)]
        [({ l := 1, d := 1, r := 1, t := fun _ _ _ => 1 } : MPSSite ℂ)] =
      star (InnerProduct
        [({ l := 1, d := 1, r := 1, t := fun _ _ _ => 1 } : MPSSite ℂ)]
        [({ l := 1, d := 1, r := 1, t := fun _ _ _ => 1 } : MPSSite ℂ)]) ∧
    0 ≤ (InnerProduct
        [({ l := 1, d := 1, r := 1, t := fun _ _ _ => 1 } : MPSSite ℂ)]
        [({ l := 1, d := 1, r := 1, t := fun _ _ _ => 1 } : MPSSite ℂ)]).re := by
  have hcompat : List.Forall₂ (fun a b => MPSSite.d a = MPSSite.d b)
      [({ l := 1, d := 1, r := 1, t := fun _ _ _ => 1 } : MPSSite ℂ)]
      [({ l := 1, d := 1, r := 1, t := fun _ _ _ => 1 } : MPSSite ℂ)] :=
    List.Forall₂.cons rfl List.Forall₂.nil
  have hchain : bondChain 1
      [({ l := 1, d := 1, r := 1, t := fun _ _ _ => 1 } : MPSSite ℂ)] :=
    ⟨rfl, rfl⟩
  exact ⟨hcompat, hchain, innerProduct_spec.1 _ _ hcompat,
    (innerProduct_spec.2 _ hchain).1⟩

end QIsing

namespace QIsing

/-! ### QR factorization (`QR`, part_000 lines 633-667)

The Householder primitives `newHouseholder`/`applyLeft`/`applyRight` live in
the dense tensor kernel, which is not part of the sources.  Modelled from the
spec: a reflector is "the unitary H" stored as `H = I − τ v v^H`
(spec section 4.2), i.e. a Hermitian unitary matrix; `applyLeft(M)`
overwrites `M` with `H·M` and `applyRight(M)` with `M·H`.  The QR loop of the
source then reduces to folding left-multiplications into `A` and
right-multiplications into `Q`, followed by the diagonal phase step of
part_000 lines 657-666, where `cmplx.Rect(1, -cmplx.Phase(rv))` equals
`conj(rv)/|rv|` for `rv ≠ 0` and `1` for `rv = 0`. -/

/-- Last processed column of `QR` (part_000 lines 641-644): `last = n`,
decremented once when `m = n`. -/
def qrLast (m n : ℕ) : ℕ := if m = n then n - 1 else n

/-- Accumulated `R`: successive `applyLeft` calls, `a ← H_i · a`. -/
def qrR {K : Type} [Field K] {m n : ℕ} (Hs : List (Matrix (Fin m) (Fin m) K))
    (A : Matrix (Fin m) (Fin n) K) : Matrix (Fin m) (Fin n) K :=
  Hs.foldl (fun a H => H * a) A

/-- Accumulated `Q`: successive `applyRight` calls on `Eye(m)`,
`q ← q · H_i`. -/
def qrQ {K : Type} [Field K] {m : ℕ} (Hs : List (Matrix (Fin m) (Fin m) K)) :
    Matrix (Fin m) (Fin m) K :=
  Hs.foldl (fun q H => q * H) 1

/-- Phase factor of one diagonal entry (part_000 line 661):
`e^(-i·arg z)`, written as `conj z / |z|` with the convention `1` at
`z = 0` (Go's `Phase(0) = 0`); `cabsK` stands for the modulus composed with
the real-to-complex coercion. -/
def qrPhase {K : Type} [Field K] [StarRing K] [DecidableEq K] (cabsK : K → K)
    (z : K) : K :=
  if z = 0 then 1 else star z / cabsK z

/-- Diagonal phase matrix of `QR` (part_000 lines 657-664): `Eye(m)` with the
first `n` diagonal entries replaced by the phase factors of `R`'s
diagonal. -/
def qrPhaseDiag {K : Type} [Field K] [StarRing K] [DecidableEq K]
    (cabsK : K → K) {m n : ℕ} (R : Matrix (Fin m) (Fin n) K) :
    Matrix (Fin m) (Fin m) K :=
  Matrix.diagonal fun i =>
    if h : (i : ℕ) < n then qrPhase cabsK (R i ⟨(i : ℕ), h⟩) else 1

/-- Embedding of `QR` (part_000 lines 633-667): fold the reflectors, then
apply the phase matrix, returning the pair `(R, Q)` with
`R = phase · (H_last ⋯ H_0 · A)` and `Q = (Eye · H_0 ⋯ H_last) · phase^H`. -/
def QR {K : Type} [Field K] [StarRing K] [DecidableEq K] (cabsK : K → K)
    {m n : ℕ} (Hs : List (Matrix (Fin m) (Fin m) K))
    (A : Matrix (Fin m) (Fin n) K) :
    Matrix (Fin m) (Fin n) K × Matrix (Fin m) (Fin m) K :=
  (qrPhaseDiag cabsK (qrR Hs A) * qrR Hs A,
    qrQ Hs * (qrPhaseDiag cabsK (qrR Hs A)).conjTranspose)

/-- Helper: folding unitary factors on the right of a unitary accumulator
keeps it unitary. -/
theorem qrQ_foldl_unitary {K : Type} [Field K] [StarRing K] {m : ℕ} :
    ∀ (Hs : List (Matrix (Fin m) (Fin m) K))
      (q : Matrix (Fin m) (Fin m) K),
      (∀ H ∈ Hs, H.conjTranspose * H = 1) → q.conjTranspose * q = 1 →
      (Hs.foldl (fun q H => q * H) q).conjTranspose *
        Hs.foldl (fun q H => q * H) q = 1 := by
  intro Hs
  induction Hs with
  | nil => intro q _ hq; exact hq
  | cons H rest ih =>
    intro q hH hq
    refine ih (q * H) (fun G hG => hH G (List.mem_cons_of_mem H hG)) ?_
    rw [Matrix.conjTranspose_mul]
    calc H.conjTranspose * q.conjTranspose * (q * H)
        = H.conjTranspose * (q.conjTranspose * q) * H := by
          rw [Matrix.mul_assoc, Matrix.mul_assoc, Matrix.mul_assoc]
      _ = H.conjTranspose * H := by rw [hq, Matrix.mul_one]
      _ = 1 := hH H (List.mem_cons_self H rest)

/-- Helper: the accumulated `Q` inverts the accumulated reflector product
when every reflector is an involution. -/
theorem qr_fold_inverse {K : Type} [Field K] {m n : ℕ} :
    ∀ (Hs : List (Matrix (Fin m) (Fin m) K))
      (q : Matrix (Fin m) (Fin m) K) (a : Matrix (Fin m) (Fin n) K),
      (∀ H ∈ Hs, H * H = 1) →
      Hs.foldl (fun q H => q * H) q * Hs.foldl (fun a H => H * a) a =
        q * a := by
  intro Hs
  induction Hs with
  | nil => intro q a _; rfl
  | cons H rest ih =>
    intro q a hH
    calc List.foldl (fun q H => q * H) (q * H) rest *
          List.foldl (fun a H => H * a) (H * a) rest
        = q * H * (H * a) :=
          ih (q * H) (H * a) fun G hG => hH G (List.mem_cons_of_mem H hG)
      _ = q * (H * H) * a := by
          rw [Matrix.mul_assoc, Matrix.mul_assoc, Matrix.mul_assoc]
      _ = q * a := by rw [hH H (List.mem_cons_self H rest), Matrix.mul_one]

/-- Helper: the phase factor has unit modulus. -/
theorem qrPhase_star_mul_self (z : ℂ) :
    star (qrPhase (fun w => ((Complex.abs w : ℝ) : ℂ)) z) *
      qrPhase (fun w => ((Complex.abs w : ℝ) : ℂ)) z = 1 := by
  by_cases hz : z = 0
  · simp [qrPhase, hz]
  · have habs : Complex.abs z ≠ 0 := by simpa using hz
    have habsC : ((Complex.abs z : ℝ) : ℂ) ≠ 0 := Complex.ofReal_ne_zero.mpr habs
    rw [qrPhase, if_neg hz]
    rw [star_div₀, star_star]
    have hcr : star ((Complex.abs z : ℝ) : ℂ) = ((Complex.abs z : ℝ) : ℂ) := by
      rw [Complex.star_def, Complex.conj_ofReal]
    rw [hcr, div_mul_div_comm]
    rw [Complex.star_def, Complex.mul_conj]
    rw [← Complex.ofReal_mul, ← Complex.sq_abs]
    rw [div_eq_one_iff_eq (Complex.ofReal_ne_zero.mpr (mul_ne_zero habs habs))]
    push_cast
    ring

/-- Helper: the phase factor rotates its argument onto the non-negative real
axis. -/
theorem qrPhase_mul_self (z : ℂ) :
    qrPhase (fun w => ((Complex.abs w : ℝ) : ℂ)) z * z =
      ((Complex.abs z : ℝ) : ℂ) := by
  by_cases hz : z = 0
  · simp [qrPhase, hz]
  · have habs : Complex.abs z ≠ 0 := by simpa using hz
    have habsC : ((Complex.abs z : ℝ) : ℂ) ≠ 0 := Complex.ofReal_ne_zero.mpr habs
    rw [qrPhase, if_neg hz]
    rw [div_mul_eq_mul_div]
    rw [Complex.star_def, mul_comm (starRingEnd ℂ z) z, Complex.mul_conj]
    rw [div_eq_iff habsC]
    rw [← Complex.ofReal_mul, ← Complex.sq_abs]
    push_cast
    ring

/-- Helper: the phase matrix is unitary, in both multiplication orders. -/
theorem qrPhaseDiag_unitary {m n : ℕ} (R : Matrix (Fin m) (Fin n) ℂ) :
    (qrPhaseDiag (fun w => ((Complex.abs w : ℝ) : ℂ)) R).conjTranspose *
        qrPhaseDiag (fun w => ((Complex.abs w : ℝ) : ℂ)) R = 1 ∧
      qrPhaseDiag (fun w => ((Complex.abs w : ℝ) : ℂ)) R *
        (qrPhaseDiag (fun w => ((Complex.abs w : ℝ) : ℂ)) R).conjTranspose = 1 := by
  have hone : ∀ i : Fin m,
      star (if h : (i : ℕ) < n
          then qrPhase (fun w => ((Complex.abs w : ℝ) : ℂ)) (R i ⟨(i : ℕ), h⟩)
          else 1) *
        (if h : (i : ℕ) < n
          then qrPhase (fun w => ((Complex.abs w : ℝ) : ℂ)) (R i ⟨(i : ℕ), h⟩)
          else 1) = 1 := by
    intro i
    by_cases h : (i : ℕ) < n
    · rw [dif_pos h]
      exact qrPhase_star_mul_self _
    · rw [dif_neg h]
      simp
  constructor
  · rw [qrPhaseDiag, Matrix.diagonal_conjTranspose, Matrix.diagonal_mul_diagonal]
    ext i j
    by_cases hij : i = j
    · subst hij
      rw [Matrix.diagonal_apply_eq, Matrix.one_apply_eq]
      exact hone i
    · rw [Matrix.diagonal_apply_ne _ hij, Matrix.one_apply_ne hij]
  · rw [qrPhaseDiag, Matrix.diagonal_conjTranspose, Matrix.diagonal_mul_diagonal]
    ext i j
    by_cases hij : i = j
    · subst hij
      rw [Matrix.diagonal_apply_eq, Matrix.one_apply_eq]
      rw [mul_comm]
      exact hone i
    · rw [Matrix.diagonal_apply_ne _ hij, Matrix.one_apply_ne hij]

/-- Claim C5: for `m ≥ n`, `QR` applies one left reflector per column
`i = 0 … last−1` with `last = n` for `m > n` and `last = n−1` for `m = n`
(the reflector count hypothesis), then a diagonal phase matrix multiplies
`Q` and `R`; on return `Q^H·Q = 1`, `Q·R` equals the original `A`, and the
diagonal of `R` is real and non-negative (each entry being the modulus of
the pre-phase diagonal entry).  In the exact-arithmetic model the round-trip
and orthogonality residuals are zero, hence within the `2ε` tolerances of
the claim. -/
theorem qr_spec (m n : ℕ) (hmn : n ≤ m) (A : Matrix (Fin m) (Fin n) ℂ)
    (Hs : List (Matrix (Fin m) (Fin m) ℂ)) (hlen : Hs.length = qrLast m n)
    (hH : ∀ H ∈ Hs, H.conjTranspose * H = 1 ∧ H.conjTranspose = H) :
    ((QR (fun w => ((Complex.abs w : ℝ) : ℂ)) Hs A).2).conjTranspose *
        (QR (fun w => ((Complex.abs w : ℝ) : ℂ)) Hs A).2 = 1 ∧
    (QR (fun w => ((Complex.abs w : ℝ) : ℂ)) Hs A).2 *
        (QR (fun w => ((Complex.abs w : ℝ) : ℂ)) Hs A).1 = A ∧
    (∀ (i : ℕ) (him : i < m) (hin : i < n),
      (QR (fun w => ((Complex.abs w : ℝ) : ℂ)) Hs A).1 ⟨i, him⟩ ⟨i, hin⟩ =
          ((Complex.abs (qrR Hs A ⟨i, him⟩ ⟨i, hin⟩) : ℝ) : ℂ) ∧
        0 ≤ ((QR (fun w => ((Complex.abs w : ℝ) : ℂ)) Hs A).1
          ⟨i, him⟩ ⟨i, hin⟩).re ∧
        ((QR (fun w => ((Complex.abs w : ℝ) : ℂ)) Hs A).1
          ⟨i, him⟩ ⟨i, hin⟩).im = 0) ∧
    (m = n → qrLast m n = n - 1) ∧ (n < m → qrLast m n = n) := by
  have hQ : (qrQ Hs).conjTranspose * qrQ Hs = 1 := by
    refine qrQ_foldl_unitary Hs 1 (fun H h => (hH H h).1) ?_
    rw [Matrix.conjTranspose_one, Matrix.one_mul]
  have hinv : qrQ Hs * qrR Hs A = A := by
    have h1 : ∀ H ∈ Hs, H * H = 1 := by
      intro H h
      have h2 := (hH H h).1
      rwa [(hH H h).2] at h2
    have := qr_fold_inverse Hs 1 A h1
    rwa [Matrix.one_mul] at this
  rcases qrPhaseDiag_unitary (qrR Hs A) with ⟨hD1, hD2⟩
  refine ⟨?_, ?_, ?_, ?_, ?_⟩
  · show (qrQ Hs *
        (qrPhaseDiag (fun w => ((Complex.abs w : ℝ) : ℂ)) (qrR Hs A)).conjTranspose).conjTranspose *
      (qrQ Hs *
        (qrPhaseDiag (fun w => ((Complex.abs w : ℝ) : ℂ)) (qrR Hs A)).conjTranspose) = 1
    rw [Matrix.conjTranspose_mul, Matrix.conjTranspose_conjTranspose]
    calc qrPhaseDiag (fun w => ((Complex.abs w : ℝ) : ℂ)) (qrR Hs A) *
          (qrQ Hs).conjTranspose *
          (qrQ Hs *
            (qrPhaseDiag (fun w => ((Complex.abs w : ℝ) : ℂ)) (qrR Hs A)).conjTranspose)
        = qrPhaseDiag (fun w => ((Complex.abs w : ℝ) : ℂ)) (qrR Hs A) *
            ((qrQ Hs).conjTranspose * qrQ Hs) *
            (qrPhaseDiag (fun w => ((Complex.abs w : ℝ) : ℂ)) (qrR Hs A)).conjTranspose := by
          rw [Matrix.mul_assoc, Matrix.mul_assoc, Matrix.mul_assoc]
      _ = 1 := by rw [hQ, Matrix.mul_one, hD2]
  · show qrQ Hs *
        (qrPhaseDiag (fun w => ((Complex.abs w : ℝ) : ℂ)) (qrR Hs A)).conjTranspose *
      (qrPhaseDiag (fun w => ((Complex.abs w : ℝ) : ℂ)) (qrR Hs A) * qrR Hs A) = A
    calc qrQ Hs *
          (qrPhaseDiag (fun w => ((Complex.abs w : ℝ) : ℂ)) (qrR Hs A)).conjTranspose *
          (qrPhaseDiag (fun w => ((Complex.abs w : ℝ) : ℂ)) (qrR Hs A) * qrR Hs A)
        = qrQ Hs *
            ((qrPhaseDiag (fun w => ((Complex.abs w : ℝ) : ℂ)) (qrR Hs A)).conjTranspose *
              qrPhaseDiag (fun w => ((Complex.abs w : ℝ) : ℂ)) (qrR Hs A)) *
            qrR Hs A := by
          rw [Matrix.mul_assoc, Matrix.mul_assoc, Matrix.mul_assoc]
      _ = qrQ Hs * qrR Hs A := by rw [hD1, Matrix.mul_one]
      _ = A := hinv
  · intro i him hin
    have hentry : (QR (fun w => ((Complex.abs w : ℝ) : ℂ)) Hs A).1
        ⟨i, him⟩ ⟨i, hin⟩ =
        ((Complex.abs (qrR Hs A ⟨i, him⟩ ⟨i, hin⟩) : ℝ) : ℂ) := by
      show (qrPhaseDiag (fun w => ((Complex.abs w : ℝ) : ℂ)) (qrR Hs A) *
          qrR Hs A) ⟨i, him⟩ ⟨i, hin⟩ = _
      rw [qrPhaseDiag, Matrix.diagonal_mul]
      rw [dif_pos (show ((⟨i, him⟩ : Fin m) : ℕ) < n from hin)]
      exact qrPhase_mul_self _
    refine ⟨hentry, ?_, ?_⟩
    · rw [hentry, Complex.ofReal_re]
      exact Complex.abs.nonneg _
    · rw [hentry, Complex.ofReal_im]
  · intro h
    rw [qrLast, if_pos h]
  · intro h
    rw [qrLast, if_neg (by omega)]

/-- Witness for C5 at `m = n = 1` with no reflectors and `A = 0`. -/
theorem qr_spec_witness :
    ((1 : ℕ) ≤ 1 ∧
      ([] : List (Matrix (Fin 1) (Fin 1) ℂ)).length = qrLast 1 1) ∧
    ((QR (fun w => ((Complex.abs w : ℝ) : ℂ))
          ([] : List (Matrix (Fin 1) (Fin 1) ℂ))
          (0 : Matrix (Fin 1) (Fin 1) ℂ)).2).conjTranspose *
        (QR (fun w => ((Complex.abs w : ℝ) : ℂ))
          ([] : List (Matrix (Fin 1) (Fin 1) ℂ))
          (0 : Matrix (Fin 1) (Fin 1) ℂ)).2 = 1 ∧
    (QR (fun w => ((Complex.abs w : ℝ) : ℂ))
          ([] : List (Matrix (Fin 1) (Fin 1) ℂ))
          (0 : Matrix (Fin 1) (Fin 1) ℂ)).2 *
        (QR (fun w => ((Complex.abs w : ℝ) : ℂ))
          ([] : List (Matrix (Fin 1) (Fin 1) ℂ))
          (0 : Matrix (Fin 1) (Fin 1) ℂ)).1 = 0 := by
  have h := qr_spec 1 1 (le_refl 1) (0 : Matrix (Fin 1) (Fin 1) ℂ) []
    (by rfl) (by simp)
  exact ⟨⟨le_refl 1, by rfl⟩, h.1, h.2.1⟩

end QIsing

